import Mathlib

/-!
Verification development for the Orchix intercepting reverse proxy.

The Rust sources are embedded shallowly:
* `src/interception.rs` — `Interceptor::validate_tools` over a JSON tree model;
* `src/routing.rs` — `Router::resolve`;
* `src/cache.rs` — `CacheKey::new` (the SHA-256/hex digest is external
  library code and is modelled as an arbitrary function of the absorbed byte
  sequence; two successive `Digest::update` calls absorb the concatenation);
* `src/streaming.rs` — `StreamingAnalyzer`: `process_buffer` and the
  `Stream::poll_next` state machine, as explicit state passing;
* `src/networking.rs` — `proxy_handler`, with an explicit trace of the cache
  and routing effects it performs.

Bytes are modelled as characters (`List Char`); every input considered here
is ASCII, and the buffered line splitting of `process_buffer` happens on the
byte level before any UTF-8 decoding, so the character-level model splits at
exactly the same positions.  `serde_json` parsing is external library code
and is passed around as a parameter `parse : List Char → Option Json`; the
theorems assume only its (JSON-semantics forced) values on the concrete
payloads they mention.
-/

namespace Orchix

/-- A `serde_json::Value`: the dynamically typed JSON tree the interceptor
duck-types against. -/
inductive Json where
  | null
  | jbool (b : Bool)
  | num (n : Int)
  | str (s : String)
  | arr (xs : List Json)
  | obj (fields : List (String × Json))

namespace Json

/-- `Value::get(key)`: field lookup on an object, `None` on any other shape. -/
def get : Json → String → Option Json
  | obj fields, k => (fields.find? (fun f => f.1 == k)).map (·.2)
  | _, _ => none

/-- `Value::as_array`. -/
def asArr : Json → Option (List Json)
  | arr xs => some xs
  | _ => none

/-- `Value::as_str`. -/
def asStr : Json → Option String
  | str s => some s
  | _ => none

end Json

/-! ## `src/interception.rs` — `Interceptor::validate_tools` -/

/-- The message `format!("Tool '{}' is blocked by Orchix security policy", name)`. -/
def toolMsg (name : String) : String :=
  "Tool '" ++ name ++ "' is blocked by Orchix security policy"

/-- The message `format!("Function '{}' is blocked by Orchix security policy", name)`. -/
def fnMsg (name : String) : String :=
  "Function '" ++ name ++ "' is blocked by Orchix security policy"

/-- `call.get("function").and_then(|f| f.get("name")).and_then(|n| n.as_str())`. -/
def nameOfCall (call : Json) : Option String :=
  ((call.get "function").bind (fun f => f.get "name")).bind Json.asStr

/-- The `for call in tool_calls` loop of `validate_tools`: the first forbidden
`.function.name` produces the error message, otherwise the loop falls through. -/
def toolLoop (fb : List String) : List Json → Option String
  | [] => none
  | call :: rest =>
    match nameOfCall call with
    | some name => if fb.contains name then some (toolMsg name) else toolLoop fb rest
    | none => toolLoop fb rest

/-- The legacy `function_call` check at the end of `validate_tools`. -/
def fcCheck (fb : List String) (body : Json) : Except String Unit :=
  match ((body.get "function_call").bind (fun f => f.get "name")).bind Json.asStr with
  | some name =>
    if fb.contains name then Except.error (fnMsg name) else Except.ok ()
  | none => Except.ok ()

/-- `Interceptor::validate_tools` (src/interception.rs): scan the `tool_calls`
array, then the legacy `function_call` field, against the forbidden list. -/
def validate_tools (fb : List String) (body : Json) : Except String Unit :=
  match (body.get "tool_calls").bind Json.asArr with
  | some calls =>
    match toolLoop fb calls with
    | some msg => Except.error msg
    | none => fcCheck fb body
  | none => fcCheck fb body

/-! ## `src/routing.rs` — `Router::resolve` -/

/-- A configured route rule (src/routing.rs). -/
structure RouteRule where
  path : String
  target_model : String
  target_url : String
deriving DecidableEq

/-- `path.starts_with(&rule.path)`: a byte-level prefix test. -/
def pathMatch (path : String) (rule : RouteRule) : Bool :=
  rule.path.data.isPrefixOf path.data

/-- `Router::resolve`: `self.rules.iter().find(|rule| path.starts_with(&rule.path))`. -/
def resolve (rules : List RouteRule) (path : String) : Option RouteRule :=
  rules.find? (fun rule => pathMatch path rule)

/-! ## `src/cache.rs` — `CacheKey::new` -/

/-- `CacheKey::new(path, body)` feeds `path.as_bytes()` and then `body` to one
SHA-256 hasher and hex-encodes the digest.  The digest of the absorbed byte
sequence is external library code, modelled by the parameter `hash`; the two
`update` calls absorb exactly the concatenation of the two byte strings. -/
def cacheKeyNew (hash : List Char → String) (path : String) (body : List Char) : String :=
  hash (path.data ++ body)

/-! ## `src/streaming.rs` — `StreamingAnalyzer`

`content_interception` walks `choices[].delta` and reuses `validate_tools`;
`process_buffer` splits the byte buffer at newlines and enqueues frames;
`poll_next` is modelled as the driver `drain` below, which feeds an explicit
list of upstream poll results through the state machine and records every
emitted item and every scheduled cache write. -/

/-- One item of the analyzer's output stream: a re-emitted SSE frame
(`Event::default().data(data)`, identified by its payload) or an error item
(`axum::Error::new(msg)`). -/
inductive SseItem where
  | frame (data : List Char)
  | fault (msg : String)
deriving DecidableEq

/-- `StreamingAnalyzer::content_interception`'s loop over `choices`: the first
`delta` that fails `validate_tools` yields its message. -/
def choicesLoop (fb : List String) : List Json → Option String
  | [] => none
  | choice :: rest =>
    match choice.get "delta" with
    | some delta =>
      match validate_tools fb delta with
      | Except.error msg => some msg
      | Except.ok _ => choicesLoop fb rest
    | none => choicesLoop fb rest

/-- `StreamingAnalyzer::content_interception`: check each `choices[i].delta`
of the decoded value; `some msg` is the `Err(msg)` case. -/
def content_interception (fb : List String) (json : Json) : Option String :=
  match (json.get "choices").bind Json.asArr with
  | some choices => choicesLoop fb choices
  | none => none

/-- The composite check `process_buffer` runs on a non-sentinel payload:
`serde_json::from_str` (the external `parse`) followed by
`content_interception`; `none` means the line is forwarded. -/
def pvOf (parse : List Char → Option Json) (fb : List String) (data : List Char) :
    Option String :=
  match parse data with
  | some json => content_interception fb json
  | none => none

/-- Position of the first `\n` in the buffer
(`self.buffer.iter().position(|&b| b == b'\n')`). -/
def findNl : List Char → Option Nat
  | [] => none
  | c :: rest => if c = '\n' then some 0 else (findNl rest).map (· + 1)

/-- The whitespace `str::trim` strips, restricted to the ASCII range that can
occur in this protocol. -/
def isWs (c : Char) : Bool :=
  c = ' ' || c = '\t' || c = '\n' || c = '\r'

/-- `str::trim` on the characters of one extracted line. -/
def trimChars (l : List Char) : List Char :=
  ((l.dropWhile isWs).reverse.dropWhile isWs).reverse

/-- The `data: ` line header. -/
def dataHdr : List Char := "data: ".data

/-- The literal terminator sentinel `[DONE]`. -/
def doneLit : List Char := "[DONE]".data

/-- The `while let Some(pos)` loop of `StreamingAnalyzer::process_buffer`,
with explicit fuel (each iteration removes at least one buffered character,
so `fuel = buffer length` runs the loop to its end).  Returns the remaining
buffer, the queue after the appends, and whether the loop ended through the
early `return` taken when a policy violation is enqueued. -/
def processBufferAux (pv : List Char → Option String) :
    Nat → List Char → List SseItem → List Char × List SseItem × Bool
  | 0, buf, acc => (buf, acc, false)
  | fuel + 1, buf, acc =>
    match findNl buf with
    | none => (buf, acc, false)
    | some pos =>
      let rest := buf.drop (pos + 1)
      let line := trimChars (buf.take (pos + 1))
      if line = [] then processBufferAux pv fuel rest acc
      else if dataHdr.isPrefixOf line then
        let d := line.drop 6
        if d = doneLit then
          processBufferAux pv fuel rest (acc ++ [SseItem.frame d])
        else
          match pv d with
          | some msg => (rest, acc ++ [SseItem.fault msg], true)
          | none => processBufferAux pv fuel rest (acc ++ [SseItem.frame d])
      else processBufferAux pv fuel rest acc

/-- `StreamingAnalyzer::process_buffer`, acting on a buffer and the pending
event queue. -/
def processBufferF (pv : List Char → Option String) (buf : List Char)
    (acc : List SseItem) : List Char × List SseItem × Bool :=
  processBufferAux pv buf.length buf acc

/-- The analyzer's mutable state: the line reassembly buffer, the pending
event queue, `full_response_buffer`, and the not-yet-consumed cache target
(the key; the cache handle itself carries no state we track). -/
structure AState where
  buffer : List Char
  pending : List SseItem
  fullResp : List Char
  cacheInfo : Option String
deriving DecidableEq

/-- One upstream poll result: a byte chunk (`Ready(Some(Ok(bytes)))`), a
transport error (`Ready(Some(Err(e)))`, identified by a message), or clean
end-of-data (`Ready(None)`). -/
inductive UpItem where
  | chunk (b : List Char)
  | upErr (e : String)
  | upDone
deriving DecidableEq

/-- The `Ready(Some(Ok(bytes)))` branch of `poll_next`: extend both buffers,
then run `process_buffer`. -/
def feedChunk (pv : List Char → Option String) (st : AState) (b : List Char) : AState :=
  let res := processBufferF pv (st.buffer ++ b) st.pending
  { buffer := res.1, pending := res.2.1, fullResp := st.fullResp ++ b,
    cacheInfo := st.cacheInfo }

/-- After `Ready(None)`, a consumer that keeps polling drives repeated
`process_buffer` passes (each `Ready(None)` from the fused inner stream runs
one) until a pass enqueues nothing, at which point `poll_next` answers
`Ready(None)`; every pass that enqueues something consumed at least one
buffered character, so `fuel = buffer length` is enough. -/
def doneFlush (pv : List Char → Option String) : Nat → List Char → List SseItem
  | 0, _ => []
  | fuel + 1, buf =>
    let res := processBufferF pv buf []
    if res.2.1 = [] then [] else res.2.1 ++ doneFlush pv fuel res.1

/-- The driver for `poll_next`: feed the listed upstream poll results through
the state machine, collecting in order every item handed to the consumer and
every `(key, body)` cache write spawned.  `poll_next` empties the pending
queue before polling upstream again, so the queue is flushed into the output
around each upstream event; the stream ends at `upDone` (`cache_info.take()`
schedules the background write exactly there). -/
def drain (pv : List Char → Option String) (st : AState) :
    List UpItem → List SseItem × List (String × List Char)
  | [] => (st.pending, [])
  | UpItem.chunk b :: rest =>
    let st1 := feedChunk pv { st with pending := [] } b
    let res := drain pv { st1 with pending := [] } rest
    (st.pending ++ st1.pending ++ res.1, res.2)
  | UpItem.upErr e :: rest =>
    let res := drain pv { st with pending := [] } rest
    (st.pending ++ SseItem.fault e :: res.1, res.2)
  | UpItem.upDone :: _ =>
    let w : List (String × List Char) :=
      match st.cacheInfo with
      | some k => [(k, st.fullResp)]
      | none => []
    (st.pending ++ doneFlush pv st.buffer.length st.buffer, w)

/-- A fresh `StreamingAnalyzer` (`StreamingAnalyzer::new`): empty buffers,
empty queue, the given cache target. -/
def initSt (cacheInfo : Option String) : AState :=
  { buffer := [], pending := [], fullResp := [], cacheInfo := cacheInfo }

/-- The concatenation of all chunk payloads of an upstream item list: the raw
wire bytes received. -/
def chunkFlat : List UpItem → List Char
  | [] => []
  | UpItem.chunk b :: rest => b ++ chunkFlat rest
  | _ :: rest => chunkFlat rest

/-! ## `src/networking.rs` — `proxy_handler`

The handler is modelled as a function of the request (path and body bytes),
the shared state (rules, forbidden list, caching flag) and the current cache
contents, returning the response, the cache afterwards, and the ordered
trace of cache lookups, cache stores and route resolutions it performed. -/

/-- A stored `CachedResponse`. -/
structure CachedResp where
  status : Nat
  headers : List (String × String)
  body : List Char
deriving DecidableEq

/-- The cache contents, modelled as an association list where an insert
prepends (`moka`'s insert replaces the visible entry; lookup takes the first
match). -/
def cacheGetL (cache : List (String × CachedResp)) (k : String) : Option CachedResp :=
  (cache.find? (fun e => e.1 == k)).map (·.2)

/-- A response `proxy_handler` can produce (body read errors are out of scope
here: the body is given). -/
inductive PResp where
  | forbidden (msg : String)
  | cachedHit (r : CachedResp)
  | routed (text : String)
  | noRoute
deriving DecidableEq

/-- One observable effect of `proxy_handler`. -/
inductive PEvent where
  | cGet (k : String)
  | cSet (k : String)
  | rResolve
deriving DecidableEq

/-- The synthesized routing response text
`format!("Routing request to {} (Model: {})", ...)`. -/
def routedText (rule : RouteRule) : String :=
  "Routing request to " ++ rule.target_url ++ " (Model: " ++ rule.target_model ++ ")"

/-- The `CachedResponse` stored for a routed plain-text response. -/
def mkTextResp (text : String) : CachedResp :=
  { status := 200, headers := [("content-type", "text/plain; charset=utf-8")],
    body := text.data }

/-- The routing tail of `proxy_handler`: resolve, and on a match synthesize
the response text and store it when a cache key was computed. -/
def proxyRoute (rules : List RouteRule) (keyOpt : Option String)
    (cache : List (String × CachedResp)) (path : String) (evs : List PEvent) :
    PResp × List (String × CachedResp) × List PEvent :=
  match resolve rules path with
  | some rule =>
    let text := routedText rule
    match keyOpt with
    | some k =>
      (PResp.routed text, (k, mkTextResp text) :: cache,
        evs ++ [PEvent.rResolve, PEvent.cSet k])
    | none => (PResp.routed text, cache, evs ++ [PEvent.rResolve])
  | none => (PResp.noRoute, cache, evs ++ [PEvent.rResolve])

/-- The cache phase of `proxy_handler`: when caching is enabled, compute the
key and look it up, returning a hit verbatim; otherwise fall through to
routing with no key. -/
def proxyCache (hash : List Char → String) (rules : List RouteRule)
    (cachingEnabled : Bool) (cache : List (String × CachedResp))
    (path : String) (bytes : List Char) :
    PResp × List (String × CachedResp) × List PEvent :=
  if cachingEnabled then
    let key := cacheKeyNew hash path bytes
    match cacheGetL cache key with
    | some cached => (PResp.cachedHit cached, cache, [PEvent.cGet key])
    | none => proxyRoute rules (some key) cache path [PEvent.cGet key]
  else proxyRoute rules none cache path []

/-- `proxy_handler` (src/networking.rs): best-effort JSON parse and whole-body
interception, then cache lookup, then route resolution and cache population. -/
def proxy_handler (parse : List Char → Option Json) (hash : List Char → String)
    (fb : List String) (rules : List RouteRule) (cachingEnabled : Bool)
    (cache : List (String × CachedResp)) (path : String) (bytes : List Char) :
    PResp × List (String × CachedResp) × List PEvent :=
  match parse bytes with
  | some json =>
    match validate_tools fb json with
    | Except.error msg => (PResp.forbidden msg, cache, [])
    | Except.ok _ => proxyCache hash rules cachingEnabled cache path bytes
  | none => proxyCache hash rules cachingEnabled cache path bytes

/-! ## The reference fixture of `stream_test_handler` (src/networking.rs)

The diagnostic stream emits five benign content deltas, a `get_weather` tool
call, a `rm_rf` tool call and the `[DONE]` sentinel, each formatted as its
own `data: ...\n\n` chunk. -/

/-- Payload of the first benign content delta. -/
def pay1 : String := "\x7b\"choices\":[\x7b\"delta\":\x7b\"content\":\"Hello, \"\x7d\x7d]\x7d"

/-- Payload of the second benign content delta. -/
def pay2 : String := "\x7b\"choices\":[\x7b\"delta\":\x7b\"content\":\"this \"\x7d\x7d]\x7d"

/-- Payload of the third benign content delta. -/
def pay3 : String := "\x7b\"choices\":[\x7b\"delta\":\x7b\"content\":\"is \"\x7d\x7d]\x7d"

/-- Payload of the fourth benign content delta. -/
def pay4 : String := "\x7b\"choices\":[\x7b\"delta\":\x7b\"content\":\"a \"\x7d\x7d]\x7d"

/-- Payload of the fifth benign content delta. -/
def pay5 : String := "\x7b\"choices\":[\x7b\"delta\":\x7b\"content\":\"stream. \"\x7d\x7d]\x7d"

/-- Payload of the allowed `get_weather` tool-call delta. -/
def pay6 : String :=
  "\x7b\"choices\":[\x7b\"delta\":\x7b\"tool_calls\":[\x7b\"index\":0,\"function\":\x7b\"name\":\"get_weather\"\x7d\x7d]\x7d\x7d]\x7d"

/-- Payload of the forbidden `rm_rf` tool-call delta. -/
def pay7 : String :=
  "\x7b\"choices\":[\x7b\"delta\":\x7b\"tool_calls\":[\x7b\"index\":1,\"function\":\x7b\"name\":\"rm_rf\"\x7d\x7d]\x7d\x7d]\x7d"

/-- A content delta value `{"choices":[{"delta":{"content": s}}]}`. -/
def contentVal (s : String) : Json :=
  Json.obj [("choices", Json.arr [Json.obj [("delta",
    Json.obj [("content", Json.str s)])]])]

/-- A tool-call delta value
`{"choices":[{"delta":{"tool_calls":[{"index": i,"function":{"name": n}}]}}]}`. -/
def toolVal (i : Int) (n : String) : Json :=
  Json.obj [("choices", Json.arr [Json.obj [("delta",
    Json.obj [("tool_calls", Json.arr [Json.obj
      [("index", Json.num i), ("function", Json.obj [("name", Json.str n)])]])])]])]

/-- The parsed value of `pay1` .. `pay7` under JSON semantics. -/
def val1 : Json := contentVal "Hello, "

/-- See `val1`. -/
def val2 : Json := contentVal "this "

/-- See `val1`. -/
def val3 : Json := contentVal "is "

/-- See `val1`. -/
def val4 : Json := contentVal "a "

/-- See `val1`. -/
def val5 : Json := contentVal "stream. "

/-- See `val1`. -/
def val6 : Json := toolVal 0 "get_weather"

/-- See `val1`. -/
def val7 : Json := toolVal 1 "rm_rf"

/-- The parsed value of `payA` (the chunking-invariance vector `{"a":1}`). -/
def valA : Json := Json.obj [("a", Json.num 1)]

/-- Payload of the chunking-invariance test vector. -/
def payA : String := "\x7b\"a\":1\x7d"

/-- `serde_json::from_str` restricted to the concrete payloads of this
development (a lookup table used to instantiate the `parse` parameter of the
parametric theorems in witnesses and counterexamples; the parametric theorems
themselves assume only parse values JSON semantics forces). -/
def fixtureParse (l : List Char) : Option Json :=
  if l = pay1.data then some val1
  else if l = pay2.data then some val2
  else if l = pay3.data then some val3
  else if l = pay4.data then some val4
  else if l = pay5.data then some val5
  else if l = pay6.data then some val6
  else if l = pay7.data then some val7
  else if l = payA.data then some valA
  else none

/-- `format!("data: {}\n\n", data)`: how `stream_test_handler` frames each
payload. -/
def sseChunk (p : String) : List Char := ("data: " ++ p ++ "\n\n").data

/-- The upstream poll results of the reference fixture stream: the eight
framed chunks (throttling delivers each as its own chunk), then clean
end-of-data. -/
def fixtureUps : List UpItem :=
  [UpItem.chunk (sseChunk pay1), UpItem.chunk (sseChunk pay2),
   UpItem.chunk (sseChunk pay3), UpItem.chunk (sseChunk pay4),
   UpItem.chunk (sseChunk pay5), UpItem.chunk (sseChunk pay6),
   UpItem.chunk (sseChunk pay7), UpItem.chunk ("data: [DONE]\n\n").data,
   UpItem.upDone]

/-- The chunking-invariance byte vector `data: {"a":1}\n\ndata: [DONE]\n\n`. -/
def vecS : List Char := ("data: " ++ payA ++ "\n\ndata: [DONE]\n\n").data

/-- A request body `{"tool_calls":[{"function":{"name":"rm_rf"}}]}` whose
top-level `tool_calls` names a forbidden tool. -/
def bodyRm : Json :=
  Json.obj [("tool_calls", Json.arr
    [Json.obj [("function", Json.obj [("name", Json.str "rm_rf")])]])]

/-- The state evolution of the analyzer over a sequence of chunks, with the
pending queue flushed to the consumer around each chunk, as `poll_next`
does. -/
def runChunks (pv : List Char → Option String) (st : AState) :
    List (List Char) → AState
  | [] => st
  | b :: rest =>
    runChunks pv { feedChunk pv { st with pending := [] } b with pending := [] } rest

/-! ## Lemmas about the buffer scan -/

theorem findNl_lt : ∀ {l : List Char} {i : Nat}, findNl l = some i → i < l.length := by
  intro l
  induction l with
  | nil => intro i h; simp [findNl] at h
  | cons c rest ih =>
    intro i h
    rw [findNl] at h
    by_cases hc : c = '\n'
    · rw [if_pos hc] at h
      cases h
      simp
    · rw [if_neg hc] at h
      cases hm : findNl rest with
      | none => rw [hm] at h; simp at h
      | some j =>
        rw [hm] at h
        simp only [Option.map_some'] at h
        cases h
        have := ih hm
        simp only [List.length_cons]
        omega

theorem findNl_app_left : ∀ {x : List Char} {i : Nat} (c : List Char),
    findNl x = some i → findNl (x ++ c) = some i := by
  intro x
  induction x with
  | nil => intro i c h; simp [findNl] at h
  | cons a rest ih =>
    intro i c h
    rw [findNl] at h
    rw [List.cons_append, findNl]
    by_cases ha : a = '\n'
    · rwa [if_pos ha] at h ⊢
    · rw [if_neg ha] at h ⊢
      cases hm : findNl rest with
      | none => rw [hm] at h; simp at h
      | some j =>
        rw [hm] at h
        rw [ih c hm]
        exact h

theorem findNl_app_nl : ∀ {L : List Char}, findNl L = none →
    ∀ (r : List Char), findNl (L ++ '\n' :: r) = some L.length := by
  intro L
  induction L with
  | nil => intro _ r; simp [findNl]
  | cons a rest ih =>
    intro h r
    rw [findNl] at h
    by_cases ha : a = '\n'
    · rw [if_pos ha] at h
      simp at h
    · rw [if_neg ha] at h
      cases hm : findNl rest with
      | some j => rw [hm] at h; simp at h
      | none =>
        rw [List.cons_append, findNl, if_neg ha, ih hm r]
        simp

theorem take_app_succ (L : List Char) (x : Char) (r : List Char) :
    (L ++ x :: r).take (L.length + 1) = L ++ [x] := by
  induction L with
  | nil => simp
  | cons a rest ih => simp [ih]

theorem drop_app_succ (L : List Char) (x : Char) (r : List Char) :
    (L ++ x :: r).drop (L.length + 1) = r := by
  induction L with
  | nil => simp
  | cons a rest ih => simp [ih]

theorem dropWhile_app_nil {p : Char → Bool} : ∀ {L : List Char} (M : List Char),
    L.dropWhile p = [] → (L ++ M).dropWhile p = M.dropWhile p := by
  intro L
  induction L with
  | nil => intro M _; rfl
  | cons a rest ih =>
    intro M h
    rw [List.dropWhile_cons] at h
    rw [List.cons_append, List.dropWhile_cons]
    cases ha : p a with
    | true => rw [ha] at h; simp only [if_true] at h ⊢; exact ih M h
    | false => rw [ha] at h; simp at h

theorem dropWhile_app_cons {p : Char → Bool} : ∀ {L : List Char} {a : Char}
    {as : List Char} (M : List Char), L.dropWhile p = a :: as →
    (L ++ M).dropWhile p = a :: (as ++ M) := by
  intro L
  induction L with
  | nil => intro a as M h; simp at h
  | cons b rest ih =>
    intro a as M h
    rw [List.dropWhile_cons] at h
    rw [List.cons_append, List.dropWhile_cons]
    cases hb : p b with
    | true => rw [hb] at h; simp only [if_true] at h ⊢; exact ih M h
    | false =>
      rw [hb] at h
      simp only [Bool.false_eq_true, if_false] at h ⊢
      cases h
      rfl

theorem trim_snoc_ws {L : List Char} {c : Char} (h : isWs c = true) :
    trimChars (L ++ [c]) = trimChars L := by
  unfold trimChars
  cases hL : L.dropWhile isWs with
  | nil =>
    rw [dropWhile_app_nil _ hL]
    simp [List.dropWhile_cons, h]
  | cons a as =>
    rw [dropWhile_app_cons _ hL]
    have : (a :: (as ++ [c])).reverse = c :: (a :: as).reverse := by simp
    rw [this, List.dropWhile_cons, h]
    simp

theorem isPrefixOf_app (l t : List Char) : l.isPrefixOf (l ++ t) = true := by
  rw [List.isPrefixOf_iff_prefix]
  exact List.prefix_append l t

theorem aux_nil (pv : List Char → Option String) :
    ∀ (fuel : Nat) (acc : List SseItem),
    processBufferAux pv fuel [] acc = ([], acc, false) := by
  intro fuel acc
  cases fuel with
  | zero => rfl
  | succ n => simp [processBufferAux, findNl]

theorem aux_fuel_eq (pv : List Char → Option String) :
    ∀ (fuel₁ fuel₂ : Nat) (buf : List Char) (acc : List SseItem),
    buf.length ≤ fuel₁ → buf.length ≤ fuel₂ →
    processBufferAux pv fuel₁ buf acc = processBufferAux pv fuel₂ buf acc := by
  intro fuel₁
  induction fuel₁ with
  | zero =>
    intro fuel₂ buf acc h₁ _
    have : buf = [] := List.length_eq_zero.mp (Nat.le_zero.mp h₁)
    subst this
    rw [aux_nil, aux_nil]
  | succ n ih =>
    intro fuel₂ buf acc h₁ h₂
    cases buf with
    | nil => rw [aux_nil, aux_nil]
    | cons c bs =>
      cases fuel₂ with
      | zero => simp at h₂
      | succ m =>
        simp only [processBufferAux]
        cases hfn : findNl (c :: bs) with
        | none => simp [hfn]
        | some pos =>
          have hlt : pos < (c :: bs).length := findNl_lt hfn
          have hrest : ((c :: bs).drop (pos + 1)).length ≤ n := by
            simp only [List.length_drop]
            simp at h₁ ⊢
            omega
          have hrest₂ : ((c :: bs).drop (pos + 1)).length ≤ m := by
            simp only [List.length_drop]
            simp at h₂ ⊢
            omega
          simp only [hfn]
          split
          · exact ih m _ _ hrest hrest₂
          · split
            · split
              · exact ih m _ _ hrest hrest₂
              · cases pv ((trimChars ((c :: bs).take (pos + 1))).drop 6) with
                | some msg => rfl
                | none => exact ih m _ _ hrest hrest₂
            · exact ih m _ _ hrest hrest₂

theorem aux_acc (pv : List Char → Option String) :
    ∀ (fuel : Nat) (buf : List Char) (acc : List SseItem),
    processBufferAux pv fuel buf acc =
      ((processBufferAux pv fuel buf []).1,
       acc ++ (processBufferAux pv fuel buf []).2.1,
       (processBufferAux pv fuel buf []).2.2) := by
  intro fuel
  induction fuel with
  | zero => intro buf acc; simp [processBufferAux]
  | succ n ih =>
    intro buf acc
    simp only [processBufferAux]
    cases hfn : findNl buf with
    | none => simp
    | some pos =>
      simp only
      split
      · conv_lhs => rw [ih]
      · split
        · split
          · conv_lhs => rw [ih]
            conv_rhs => rw [ih]
            try simp
          · cases hpv : pv ((trimChars (buf.take (pos + 1))).drop 6) with
            | some msg => simp
            | none =>
              conv_lhs => rw [ih]
              conv_rhs => rw [ih]
              try simp
        · conv_lhs => rw [ih]

theorem aux_nonl (pv : List Char → Option String) :
    ∀ (fuel : Nat) (buf : List Char) (acc : List SseItem), buf.length ≤ fuel →
    (processBufferAux pv fuel buf acc).2.2 = false →
    findNl (processBufferAux pv fuel buf acc).1 = none := by
  intro fuel
  induction fuel with
  | zero =>
    intro buf acc h _
    have : buf = [] := List.length_eq_zero.mp (Nat.le_zero.mp h)
    subst this
    simp [processBufferAux, findNl]
  | succ n ih =>
    intro buf acc hlen hflag
    rw [processBufferAux] at hflag ⊢
    cases hfn : findNl buf with
    | none => dsimp only at hflag ⊢; exact hfn
    | some pos =>
      have hlt : pos < buf.length := findNl_lt hfn
      have hrest : (buf.drop (pos + 1)).length ≤ n := by
        simp only [List.length_drop]
        omega
      rw [hfn] at hflag
      dsimp only at hflag ⊢
      split at hflag
      · next hb => rw [if_pos hb]; exact ih _ _ hrest hflag
      · next hb =>
        rw [if_neg hb]
        split at hflag
        · next hp =>
          rw [if_pos hp]
          split at hflag
          · next hd => rw [if_pos hd]; exact ih _ _ hrest hflag
          · next hd =>
            rw [if_neg hd]
            cases hpv : pv ((trimChars (buf.take (pos + 1))).drop 6) with
            | some msg => rw [hpv] at hflag; simp at hflag
            | none =>
              rw [hpv] at hflag
              dsimp only at hflag ⊢
              exact ih _ _ hrest hflag
        · next hp =>
          rw [if_neg hp]
          exact ih _ _ hrest hflag

theorem pf_end (pv : List Char → Option String) (buf : List Char)
    (acc : List SseItem) (h : findNl buf = none) :
    processBufferF pv buf acc = (buf, acc, false) := by
  cases buf with
  | nil => rfl
  | cons c bs =>
    rw [processBufferF]
    simp only [List.length_cons, processBufferAux, h]

theorem pf_unfold (pv : List Char → Option String) (L r : List Char)
    (acc : List SseItem) (hnl : findNl L = none) :
    processBufferF pv (L ++ '\n' :: r) acc =
      (if trimChars (L ++ ['\n']) = [] then processBufferF pv r acc
       else if dataHdr.isPrefixOf (trimChars (L ++ ['\n'])) then
         if (trimChars (L ++ ['\n'])).drop 6 = doneLit then
           processBufferF pv r (acc ++ [SseItem.frame ((trimChars (L ++ ['\n'])).drop 6)])
         else
           match pv ((trimChars (L ++ ['\n'])).drop 6) with
           | some msg => (r, acc ++ [SseItem.fault msg], true)
           | none =>
             processBufferF pv r (acc ++ [SseItem.frame ((trimChars (L ++ ['\n'])).drop 6)])
       else processBufferF pv r acc) := by
  have hlen : (L ++ '\n' :: r).length = (L.length + r.length) + 1 := by
    simp [List.length_append]
    omega
  have key : ∀ acc', processBufferAux pv (L.length + r.length) r acc' =
      processBufferF pv r acc' := fun acc' =>
    aux_fuel_eq pv _ _ r acc' (by omega) (le_refl _)
  rw [processBufferF, hlen]
  simp only [processBufferAux]
  rw [findNl_app_nl hnl r]
  dsimp only
  rw [take_app_succ, drop_app_succ]
  simp only [key]

theorem pf_skip (pv : List Char → Option String) (L r : List Char)
    (acc : List SseItem) (hnl : findNl L = none)
    (h : dataHdr.isPrefixOf (trimChars L) = false) :
    processBufferF pv (L ++ '\n' :: r) acc = processBufferF pv r acc := by
  rw [pf_unfold pv L r acc hnl, trim_snoc_ws (show isWs '\n' = true from rfl)]
  by_cases he : trimChars L = []
  · rw [if_pos he]
  · rw [if_neg he, if_neg (by simp [h])]

theorem pf_data_done (pv : List Char → Option String) (L r : List Char)
    (acc : List SseItem) {d : List Char} (hnl : findNl L = none)
    (ht : trimChars L = dataHdr ++ d) (hd : d = doneLit) :
    processBufferF pv (L ++ '\n' :: r) acc =
      processBufferF pv r (acc ++ [SseItem.frame d]) := by
  rw [pf_unfold pv L r acc hnl, trim_snoc_ws (show isWs '\n' = true from rfl), ht]
  rw [if_neg (by simp [show dataHdr ≠ [] from by decide]),
    if_pos (isPrefixOf_app dataHdr d),
    show (6 : Nat) = dataHdr.length from rfl, List.drop_left]
  rw [if_pos hd]

theorem pf_data_ok (pv : List Char → Option String) (L r : List Char)
    (acc : List SseItem) {d : List Char} (hnl : findNl L = none)
    (ht : trimChars L = dataHdr ++ d) (hpv : pv d = none) :
    processBufferF pv (L ++ '\n' :: r) acc =
      processBufferF pv r (acc ++ [SseItem.frame d]) := by
  rw [pf_unfold pv L r acc hnl, trim_snoc_ws (show isWs '\n' = true from rfl), ht]
  rw [if_neg (by simp [show dataHdr ≠ [] from by decide]),
    if_pos (isPrefixOf_app dataHdr d),
    show (6 : Nat) = dataHdr.length from rfl, List.drop_left]
  by_cases hd : d = doneLit
  · rw [if_pos hd]
  · rw [if_neg hd, hpv]

theorem pf_data_bad (pv : List Char → Option String) (L r : List Char)
    (acc : List SseItem) {d : List Char} {m : String} (hnl : findNl L = none)
    (ht : trimChars L = dataHdr ++ d) (hd : d ≠ doneLit) (hpv : pv d = some m) :
    processBufferF pv (L ++ '\n' :: r) acc = (r, acc ++ [SseItem.fault m], true) := by
  rw [pf_unfold pv L r acc hnl, trim_snoc_ws (show isWs '\n' = true from rfl), ht]
  rw [if_neg (by simp [show dataHdr ≠ [] from by decide]),
    if_pos (isPrefixOf_app dataHdr d),
    show (6 : Nat) = dataHdr.length from rfl, List.drop_left]
  rw [if_neg hd, hpv]

theorem take_app_of_le {n : Nat} (x c : List Char) (h : n ≤ x.length) :
    (x ++ c).take n = x.take n := by
  rw [List.take_append_eq_append_take, Nat.sub_eq_zero_of_le h]
  simp

theorem drop_app_of_le {n : Nat} (x c : List Char) (h : n ≤ x.length) :
    (x ++ c).drop n = x.drop n ++ c := by
  rw [List.drop_append_eq_append_drop, Nat.sub_eq_zero_of_le h]
  simp

theorem pf_step (pv : List Char → Option String) (x : List Char)
    (acc : List SseItem) {pos : Nat} (h : findNl x = some pos) :
    processBufferF pv x acc =
      (if trimChars (x.take (pos + 1)) = [] then
        processBufferF pv (x.drop (pos + 1)) acc
       else if dataHdr.isPrefixOf (trimChars (x.take (pos + 1))) then
         if (trimChars (x.take (pos + 1))).drop 6 = doneLit then
           processBufferF pv (x.drop (pos + 1))
             (acc ++ [SseItem.frame ((trimChars (x.take (pos + 1))).drop 6)])
         else
           match pv ((trimChars (x.take (pos + 1))).drop 6) with
           | some msg => (x.drop (pos + 1), acc ++ [SseItem.fault msg], true)
           | none =>
             processBufferF pv (x.drop (pos + 1))
               (acc ++ [SseItem.frame ((trimChars (x.take (pos + 1))).drop 6)])
       else processBufferF pv (x.drop (pos + 1)) acc) := by
  have hlt : pos < x.length := findNl_lt h
  cases x with
  | nil => simp [findNl] at h
  | cons a bs =>
    have key : ∀ acc', processBufferAux pv bs.length ((a :: bs).drop (pos + 1)) acc' =
        processBufferF pv ((a :: bs).drop (pos + 1)) acc' := fun acc' =>
      aux_fuel_eq pv _ _ _ acc'
        (by simp only [List.length_drop, List.length_cons] at hlt ⊢; omega) (le_refl _)
    rw [processBufferF]
    simp only [List.length_cons, processBufferAux, h]
    try dsimp only
    simp only [key]

theorem aux_append (pv : List Char → Option String) :
    ∀ (fuel : Nat) (x : List Char) (acc : List SseItem) (c : List Char),
    x.length ≤ fuel → (processBufferAux pv fuel x acc).2.2 = false →
    processBufferF pv (x ++ c) acc =
      processBufferF pv ((processBufferAux pv fuel x acc).1 ++ c)
        ((processBufferAux pv fuel x acc).2.1) := by
  intro fuel
  induction fuel with
  | zero =>
    intro x acc c hlen _
    have hx : x = [] := List.length_eq_zero.mp (Nat.le_zero.mp hlen)
    subst hx
    simp [processBufferAux]
  | succ n ih =>
    intro x acc c hlen hflag
    rw [processBufferAux] at hflag ⊢
    cases hfn : findNl x with
    | none => dsimp only
    | some pos =>
      have hlt : pos < x.length := findNl_lt hfn
      have hrest : (x.drop (pos + 1)).length ≤ n := by
        simp only [List.length_drop]
        omega
      rw [hfn] at hflag
      rw [pf_step pv (x ++ c) acc (findNl_app_left c hfn)]
      rw [take_app_of_le x c (by omega), drop_app_of_le x c (by omega)]
      dsimp only at hflag ⊢
      split at hflag
      · next hb => simp only [if_pos hb]; exact ih _ _ c hrest hflag
      · next hb =>
        simp only [if_neg hb]
        split at hflag
        · next hp =>
          simp only [if_pos hp]
          split at hflag
          · next hd => simp only [if_pos hd]; exact ih _ _ c hrest hflag
          · next hd =>
            simp only [if_neg hd]
            cases hpv : pv ((trimChars (x.take (pos + 1))).drop 6) with
            | some msg => rw [hpv] at hflag; simp at hflag
            | none =>
              rw [hpv] at hflag
              simp only [hpv]
              dsimp only at hflag ⊢
              exact ih _ _ c hrest hflag
        · next hp =>
          simp only [if_neg hp]
          exact ih _ _ c hrest hflag

theorem aux_pref_flag (pv : List Char → Option String) :
    ∀ (fuel : Nat) (x c : List Char) (acc : List SseItem), x.length ≤ fuel →
    (processBufferF pv (x ++ c) acc).2.2 = false →
    (processBufferAux pv fuel x acc).2.2 = false := by
  intro fuel
  induction fuel with
  | zero => intro x c acc _ _; simp [processBufferAux]
  | succ n ih =>
    intro x c acc hlen hflag
    rw [processBufferAux]
    cases hfn : findNl x with
    | none => dsimp only
    | some pos =>
      have hlt : pos < x.length := findNl_lt hfn
      have hrest : (x.drop (pos + 1)).length ≤ n := by
        simp only [List.length_drop]
        omega
      rw [pf_step pv (x ++ c) acc (findNl_app_left c hfn)] at hflag
      rw [take_app_of_le x c (by omega), drop_app_of_le x c (by omega)] at hflag
      dsimp only at hflag ⊢
      split at hflag
      · next hb => rw [if_pos hb]; exact ih _ c _ hrest hflag
      · next hb =>
        rw [if_neg hb]
        split at hflag
        · next hp =>
          rw [if_pos hp]
          split at hflag
          · next hd => rw [if_pos hd]; exact ih _ c _ hrest hflag
          · next hd =>
            rw [if_neg hd]
            cases hpv : pv ((trimChars (x.take (pos + 1))).drop 6) with
            | some msg =>
              rw [hpv] at hflag
              simp at hflag
            | none =>
              rw [hpv] at hflag
              dsimp only at hflag ⊢
              exact ih _ c _ hrest hflag
        · next hp =>
          rw [if_neg hp]
          exact ih _ c _ hrest hflag

theorem pf_append (pv : List Char → Option String) (x c : List Char)
    (acc : List SseItem) (hf : (processBufferF pv x acc).2.2 = false) :
    processBufferF pv (x ++ c) acc =
      processBufferF pv ((processBufferF pv x acc).1 ++ c)
        ((processBufferF pv x acc).2.1) :=
  aux_append pv x.length x acc c (le_refl _) hf

theorem pf_pref_flag (pv : List Char → Option String) (x c : List Char)
    (acc : List SseItem) (hf : (processBufferF pv (x ++ c) acc).2.2 = false) :
    (processBufferF pv x acc).2.2 = false :=
  aux_pref_flag pv x.length x c acc (le_refl _) hf

theorem pf_acc (pv : List Char → Option String) (buf : List Char)
    (acc : List SseItem) :
    processBufferF pv buf acc =
      ((processBufferF pv buf []).1, acc ++ (processBufferF pv buf []).2.1,
       (processBufferF pv buf []).2.2) :=
  aux_acc pv buf.length buf acc

theorem pf_nonl (pv : List Char → Option String) (buf : List Char)
    (acc : List SseItem) (hf : (processBufferF pv buf acc).2.2 = false) :
    findNl (processBufferF pv buf acc).1 = none :=
  aux_nonl pv buf.length buf acc (le_refl _) hf

theorem doneFlush_eq (pv : List Char → Option String) (x : List Char)
    (h : (processBufferF pv x []).2.2 = false) :
    doneFlush pv x.length x = (processBufferF pv x []).2.1 := by
  cases x with
  | nil => rfl
  | cons a bs =>
    rw [List.length_cons, doneFlush]
    try dsimp only
    by_cases hres : (processBufferF pv (a :: bs) []).2.1 = []
    · rw [if_pos hres, hres]
    · rw [if_neg hres]
      have hnl : findNl (processBufferF pv (a :: bs) []).1 = none := pf_nonl pv _ _ h
      cases hbs : bs.length with
      | zero => simp [doneFlush]
      | succ m =>
        rw [doneFlush]
        try dsimp only
        rw [pf_end pv _ _ hnl]
        simp

theorem drain_chunks (pv : List Char → Option String) :
    ∀ (css : List (List Char)) (x fr : List Char) (ci : Option String),
    (processBufferF pv (x ++ css.flatten) []).2.2 = false →
    (drain pv ⟨x, [], fr, ci⟩ (css.map UpItem.chunk ++ [UpItem.upDone])).1 =
      (processBufferF pv (x ++ css.flatten) []).2.1 := by
  intro css
  induction css with
  | nil =>
    intro x fr ci h
    simp only [List.flatten_nil, List.append_nil] at h
    simp only [List.map_nil, List.nil_append, drain]
    rw [doneFlush_eq pv x h]
    simp [List.append_nil]
  | cons c rest ih =>
    intro x fr ci h
    have hassoc : x ++ (c :: rest).flatten = (x ++ c) ++ rest.flatten := by
      simp [List.flatten_cons, List.append_assoc]
    rw [hassoc] at h ⊢
    have hflag1 : (processBufferF pv (x ++ c) []).2.2 = false :=
      pf_pref_flag pv (x ++ c) rest.flatten [] h
    have happ := pf_append pv (x ++ c) rest.flatten [] hflag1
    have hacc := pf_acc pv ((processBufferF pv (x ++ c) []).1 ++ rest.flatten)
      ((processBufferF pv (x ++ c) []).2.1)
    have hflag2 : (processBufferF pv
        ((processBufferF pv (x ++ c) []).1 ++ rest.flatten) []).2.2 = false := by
      have := h
      rw [happ, hacc] at this
      exact this
    simp only [List.map_cons, List.cons_append, drain, feedChunk, List.append_eq]
    rw [ih ((processBufferF pv (x ++ c) []).1) (fr ++ c) ci hflag2]
    rw [happ, hacc]
    simp [List.nil_append]

theorem drain_writes (pv : List Char → Option String) :
    ∀ (ups : List UpItem) (st : AState), UpItem.upDone ∉ ups →
    (drain pv st (ups ++ [UpItem.upDone])).2 =
      (match st.cacheInfo with
       | some k => [(k, st.fullResp ++ chunkFlat ups)]
       | none => []) := by
  intro ups
  induction ups with
  | nil =>
    intro st _
    simp only [List.nil_append, drain, chunkFlat]
    cases st.cacheInfo <;> simp
  | cons u rest ih =>
    intro st hnd
    have hnd' : UpItem.upDone ∉ rest := fun hm => hnd (List.mem_cons_of_mem u hm)
    cases u with
    | chunk b =>
      simp only [List.cons_append, drain, List.append_eq]
      rw [ih _ hnd']
      simp [feedChunk, chunkFlat, List.append_assoc]
    | upErr e =>
      simp only [List.cons_append, drain, List.append_eq]
      rw [ih _ hnd']
      simp [chunkFlat]
    | upDone => exact absurd (List.mem_cons_self _ _) hnd

theorem drain_no_done (pv : List Char → Option String) :
    ∀ (ups : List UpItem) (st : AState), UpItem.upDone ∉ ups →
    (drain pv st ups).2 = [] := by
  intro ups
  induction ups with
  | nil => intro st _; rfl
  | cons u rest ih =>
    intro st hnd
    have hnd' : UpItem.upDone ∉ rest := fun hm => hnd (List.mem_cons_of_mem u hm)
    cases u with
    | chunk b => simp only [drain]; exact ih _ hnd'
    | upErr e => simp only [drain]; exact ih _ hnd'
    | upDone => exact absurd (List.mem_cons_self _ _) hnd

theorem drain_le_one (pv : List Char → Option String) :
    ∀ (ups : List UpItem) (st : AState), (drain pv st ups).2.length ≤ 1 := by
  intro ups
  induction ups with
  | nil => intro st; simp [drain]
  | cons u rest ih =>
    intro st
    cases u with
    | chunk b => simp only [drain]; exact ih _
    | upErr e => simp only [drain]; exact ih _
    | upDone =>
      simp only [drain]
      cases st.cacheInfo <;> simp

theorem pf_blank (pv : List Char → Option String) (r : List Char)
    (acc : List SseItem) :
    processBufferF pv ('\n' :: r) acc = processBufferF pv r acc := by
  have h := pf_skip pv [] r acc rfl (by decide)
  simpa using h

theorem sse_chunk_ok (pv : List Char → Option String) (p : String)
    (acc : List SseItem) (hnl : findNl ("data: " ++ p).data = none)
    (ht : trimChars ("data: " ++ p).data = dataHdr ++ p.data)
    (hpv : pv p.data = none) :
    processBufferF pv (sseChunk p) acc =
      ([], acc ++ [SseItem.frame p.data], false) := by
  have e : sseChunk p = ("data: " ++ p).data ++ '\n' :: ['\n'] := by
    show (("data: " ++ p ++ "\n\n") : String).data = _
    rw [show (("data: " ++ p ++ "\n\n") : String).data
        = ("data: " ++ p).data ++ ("\n\n" : String).data from rfl]
  rw [e, pf_data_ok pv _ _ acc hnl ht hpv, pf_blank, pf_end pv [] _ rfl]

theorem sse_chunk_bad (pv : List Char → Option String) (p : String)
    (acc : List SseItem) (m : String) (hnl : findNl ("data: " ++ p).data = none)
    (ht : trimChars ("data: " ++ p).data = dataHdr ++ p.data)
    (hd : p.data ≠ doneLit) (hpv : pv p.data = some m) :
    processBufferF pv (sseChunk p) acc =
      (['\n'], acc ++ [SseItem.fault m], true) := by
  have e : sseChunk p = ("data: " ++ p).data ++ '\n' :: ['\n'] := by
    show (("data: " ++ p ++ "\n\n") : String).data = _
    rw [show (("data: " ++ p ++ "\n\n") : String).data
        = ("data: " ++ p).data ++ ("\n\n" : String).data from rfl]
  rw [e, pf_data_bad pv _ _ acc hnl ht hd hpv]

theorem done_chunk_eval (pv : List Char → Option String) (acc : List SseItem) :
    processBufferF pv ('\n' :: ("data: [DONE]\n\n" : String).data) acc =
      ([], acc ++ [SseItem.frame doneLit], false) := by
  rw [pf_blank,
    show ("data: [DONE]\n\n" : String).data
      = ("data: [DONE]" : String).data ++ '\n' :: ['\n'] from rfl,
    pf_data_done pv _ _ acc (by decide)
      (show trimChars ("data: [DONE]" : String).data = dataHdr ++ doneLit from by decide)
      rfl,
    pf_blank, pf_end pv [] _ rfl]

theorem runChunks_fullResp (pv : List Char → Option String) :
    ∀ (css : List (List Char)) (st : AState),
    (runChunks pv st css).fullResp = st.fullResp ++ css.flatten := by
  intro css
  induction css with
  | nil => intro st; simp [runChunks]
  | cons c rest ih =>
    intro st
    simp only [runChunks]
    rw [ih]
    simp [feedChunk, List.flatten_cons, List.append_assoc]

/-! ## Lemmas about the policy engine and the router -/

theorem find?_first {α : Type} (p : α → Bool) : ∀ (l : List α) (a : α),
    l.find? p = some a ↔
      ∃ l₁ l₂, l = l₁ ++ a :: l₂ ∧ p a = true ∧ ∀ x ∈ l₁, p x = false := by
  intro l
  induction l with
  | nil =>
    intro a
    constructor
    · intro h; simp at h
    · rintro ⟨l₁, l₂, heq, -, -⟩
      exact absurd heq (by simp)
  | cons b t ih =>
    intro a
    cases hb : p b with
    | true =>
      rw [List.find?_cons_of_pos _ hb]
      constructor
      · intro h
        cases h
        exact ⟨[], t, rfl, hb, by simp⟩
      · rintro ⟨l₁, l₂, heq, hpa, hall⟩
        cases l₁ with
        | nil =>
          simp only [List.nil_append, List.cons.injEq] at heq
          rw [heq.1]
        | cons c l₁t =>
          simp only [List.cons_append, List.cons.injEq] at heq
          have hc : p b = false := by
            rw [heq.1]
            exact hall c (by simp)
          rw [hc] at hb
          cases hb
    | false =>
      rw [List.find?_cons_of_neg _ (by simp [hb])]
      rw [ih a]
      constructor
      · rintro ⟨l₁, l₂, heq, hpa, hall⟩
        refine ⟨b :: l₁, l₂, by simp [heq], hpa, ?_⟩
        intro x hx
        cases hx with
        | head => exact hb
        | tail _ hm => exact hall x hm
      · rintro ⟨l₁, l₂, heq, hpa, hall⟩
        cases l₁ with
        | nil =>
          simp only [List.nil_append, List.cons.injEq] at heq
          rw [heq.1] at hb
          rw [hb] at hpa
          cases hpa
        | cons c l₁t =>
          simp only [List.cons_append, List.cons.injEq] at heq
          refine ⟨l₁t, l₂, heq.2, hpa, ?_⟩
          intro x hx
          exact hall x (by simp [hx])

theorem toolLoop_some_iff (fb : List String) : ∀ (calls : List Json),
    (∃ m, toolLoop fb calls = some m) ↔
      ∃ c ∈ calls, ∃ nm, nameOfCall c = some nm ∧ fb.contains nm = true := by
  intro calls
  induction calls with
  | nil => simp [toolLoop]
  | cons call rest ih =>
    rw [toolLoop]
    cases hn : nameOfCall call with
    | none =>
      rw [ih]
      constructor
      · rintro ⟨c, hc, nm, hnm, hcon⟩
        exact ⟨c, List.mem_cons_of_mem call hc, nm, hnm, hcon⟩
      · rintro ⟨c, hc, nm, hnm, hcon⟩
        cases hc with
        | head => rw [hn] at hnm; cases hnm
        | tail _ hm => exact ⟨c, hm, nm, hnm, hcon⟩
    | some name =>
      cases hcon : fb.contains name with
      | true =>
        simp only [if_pos rfl, hcon, if_true]
        constructor
        · intro _
          exact ⟨call, List.mem_cons_self call rest, name, hn, hcon⟩
        · intro _
          exact ⟨toolMsg name, rfl⟩
      | false =>
        simp only [hcon, Bool.false_eq_true, if_false]
        rw [ih]
        constructor
        · rintro ⟨c, hc, nm, hnm, hcon'⟩
          exact ⟨c, List.mem_cons_of_mem call hc, nm, hnm, hcon'⟩
        · rintro ⟨c, hc, nm, hnm, hcon'⟩
          cases hc with
          | head =>
            rw [hn] at hnm
            cases hnm
            rw [hcon'] at hcon
            cases hcon
          | tail _ hm => exact ⟨c, hm, nm, hnm, hcon'⟩

theorem toolLoop_msg (fb : List String) : ∀ (calls : List Json) (m : String),
    toolLoop fb calls = some m →
    ∃ nm, fb.contains nm = true ∧ m = toolMsg nm := by
  intro calls
  induction calls with
  | nil => intro m h; simp [toolLoop] at h
  | cons call rest ih =>
    intro m h
    rw [toolLoop] at h
    cases hn : nameOfCall call with
    | none => rw [hn] at h; exact ih m h
    | some name =>
      rw [hn] at h
      dsimp only at h
      cases hcon : fb.contains name with
      | true =>
        rw [hcon, if_pos rfl] at h
        cases h
        exact ⟨name, hcon, rfl⟩
      | false =>
        rw [hcon] at h
        simp only [Bool.false_eq_true, if_false] at h
        exact ih m h

theorem fcCheck_error_iff (fb : List String) (v : Json) :
    (∃ m, fcCheck fb v = Except.error m) ↔
      ∃ nm, ((v.get "function_call").bind (fun f => f.get "name")).bind Json.asStr
          = some nm ∧ fb.contains nm = true := by
  unfold fcCheck
  cases hn : ((v.get "function_call").bind (fun f => f.get "name")).bind Json.asStr with
  | none => simp
  | some name =>
    dsimp only
    cases hcon : fb.contains name with
    | true =>
      rw [if_pos rfl]
      constructor
      · intro _
        exact ⟨name, rfl, hcon⟩
      · intro _
        exact ⟨fnMsg name, rfl⟩
    | false =>
      simp only [Bool.false_eq_true, if_false]
      constructor
      · rintro ⟨m, hm⟩
        cases hm
      · rintro ⟨nm, hnm, hc⟩
        cases hnm
        rw [hc] at hcon
        cases hcon

theorem fcCheck_msg (fb : List String) (v : Json) (m : String)
    (h : fcCheck fb v = Except.error m) :
    ∃ nm, fb.contains nm = true ∧ m = fnMsg nm := by
  unfold fcCheck at h
  cases hn : ((v.get "function_call").bind (fun f => f.get "name")).bind Json.asStr with
  | none => rw [hn] at h; cases h
  | some name =>
    rw [hn] at h
    dsimp only at h
    cases hcon : fb.contains name with
    | true =>
      rw [hcon, if_pos rfl] at h
      cases h
      exact ⟨name, hcon, rfl⟩
    | false =>
      rw [hcon] at h
      simp only [Bool.false_eq_true, if_false] at h
      cases h

/-! ## The claims -/

/-- C10: `CacheKey::new` hashes the concatenation of the path bytes and the
body bytes with no separator, so whenever `p₁ ++ b₁ = p₂ ++ b₂` as byte
strings the two keys coincide; in particular path `/ab` with body `c` and
path `/a` with body `bc` share one cache key (and hence one cache entry). -/
theorem c10_cache_key_concat (hash : List Char → String) (p₁ p₂ : String)
    (b₁ b₂ : List Char) (h : p₁.data ++ b₁ = p₂.data ++ b₂) :
    cacheKeyNew hash p₁ b₁ = cacheKeyNew hash p₂ b₂ ∧
    cacheKeyNew hash "/ab" ("c" : String).data
      = cacheKeyNew hash "/a" ("bc" : String).data := by
  constructor
  · unfold cacheKeyNew
    rw [h]
  · unfold cacheKeyNew
    rfl

/-- Witness for C10 at `hash := String.mk`, `/ab` + `c` against `/a` + `bc`. -/
theorem c10_cache_key_concat_witness :
    cacheKeyNew String.mk "/ab" ("c" : String).data
        = cacheKeyNew String.mk "/a" ("bc" : String).data ∧
    cacheKeyNew String.mk "/ab" ("c" : String).data
        = cacheKeyNew String.mk "/a" ("bc" : String).data :=
  c10_cache_key_concat String.mk "/ab" "/a" ("c" : String).data
    ("bc" : String).data (by decide)

/-- C5: `Router::resolve` returns the first rule in declaration order whose
`path` is a prefix of the request path, and `none` exactly when no rule
matches; for rules `[/a, /ab]` in that order, `resolve "/abc"` returns the
`/a` rule (first match, not longest match). -/
theorem c5_first_match :
    (∀ (rules : List RouteRule) (path : String) (r : RouteRule),
      (resolve rules path = some r ↔
        ∃ pre post, rules = pre ++ r :: post ∧ pathMatch path r = true ∧
          ∀ r' ∈ pre, pathMatch path r' = false) ∧
      (resolve rules path = none ↔ ∀ r' ∈ rules, pathMatch path r' = false)) ∧
    resolve [{ path := "/a", target_model := "model-a", target_url := "url-a" },
             { path := "/ab", target_model := "model-b", target_url := "url-b" }]
        "/abc" =
      some { path := "/a", target_model := "model-a", target_url := "url-a" } := by
  refine ⟨fun rules path r => ⟨?_, ?_⟩, by decide⟩
  · exact find?_first (fun rule => pathMatch path rule) rules r
  · rw [resolve, List.find?_eq_none]
    constructor
    · intro h r' hr'
      have := h r' hr'
      simpa using this
    · intro h r' hr'
      simp [h r' hr']

/-- C4: `validate_tools` returns a violation iff some element of the
`tool_calls` array field carries a `.function.name` in the forbidden list, or
the `function_call` field carries a forbidden `.name`; every violation
message names a forbidden call; absent or mistyped fields validate
successfully (the left-to-right direction read contrapositively). -/
theorem c4_validate_iff (fb : List String) (v : Json) :
    ((∃ m, validate_tools fb v = Except.error m) ↔
      ((∃ calls, (v.get "tool_calls").bind Json.asArr = some calls ∧
          ∃ c ∈ calls, ∃ nm, nameOfCall c = some nm ∧ fb.contains nm = true) ∨
        (∃ nm, ((v.get "function_call").bind (fun f => f.get "name")).bind Json.asStr
            = some nm ∧ fb.contains nm = true))) ∧
    (∀ m, validate_tools fb v = Except.error m →
      ∃ nm, fb.contains nm = true ∧ (m = toolMsg nm ∨ m = fnMsg nm)) := by
  unfold validate_tools
  cases hc : (v.get "tool_calls").bind Json.asArr with
  | none =>
    dsimp only
    constructor
    · rw [fcCheck_error_iff]
      constructor
      · intro h
        exact Or.inr h
      · rintro (⟨calls, hcalls, -⟩ | h)
        · cases hcalls
        · exact h
    · intro m hm
      obtain ⟨nm, hcon, hmsg⟩ := fcCheck_msg fb v m hm
      exact ⟨nm, hcon, Or.inr hmsg⟩
  | some calls =>
    dsimp only
    cases htl : toolLoop fb calls with
    | some msg =>
      dsimp only
      constructor
      · constructor
        · intro _
          exact Or.inl ⟨calls, rfl, (toolLoop_some_iff fb calls).mp ⟨msg, htl⟩⟩
        · intro _
          exact ⟨msg, rfl⟩
      · intro m hm
        injection hm with hmm
        obtain ⟨nm, hcon, hmsg⟩ := toolLoop_msg fb calls msg htl
        exact ⟨nm, hcon, Or.inl (hmm ▸ hmsg)⟩
    | none =>
      dsimp only
      constructor
      · rw [fcCheck_error_iff]
        constructor
        · intro h
          exact Or.inr h
        · rintro (⟨calls', hcalls', hex⟩ | h)
          · cases hcalls'
            obtain ⟨m, hm⟩ := (toolLoop_some_iff fb calls).mpr hex
            rw [htl] at hm
            cases hm
          · exact h
      · intro m hm
        obtain ⟨nm, hcon, hmsg⟩ := fcCheck_msg fb v m hm
        exact ⟨nm, hcon, Or.inr hmsg⟩

/-- C6: when the body parses as JSON and the whole-body policy check fails,
`proxy_handler` returns the forbidden outcome carrying the violation message,
leaves the cache unchanged and performs no cache lookup, no cache store and
no route resolution (its effect trace is empty). -/
theorem c6_forbidden_short_circuit (parse : List Char → Option Json)
    (hash : List Char → String) (fb : List String) (rules : List RouteRule)
    (en : Bool) (cache : List (String × CachedResp)) (path : String)
    (bytes : List Char) (j : Json) (m : String)
    (hp : parse bytes = some j) (hv : validate_tools fb j = Except.error m) :
    proxy_handler parse hash fb rules en cache path bytes =
      (PResp.forbidden m, cache, []) := by
  unfold proxy_handler
  rw [hp]
  dsimp only
  rw [hv]

/-- Witness for C6: a body whose `tool_calls` names the forbidden `rm_rf`. -/
theorem c6_forbidden_short_circuit_witness :
    proxy_handler (fun _ => some bodyRm) (fun _ => "k") ["rm_rf"] [] true []
        "/v1/chat" [] =
      (PResp.forbidden (toolMsg "rm_rf"), [], []) :=
  c6_forbidden_short_circuit (fun _ => some bodyRm) (fun _ => "k") ["rm_rf"] []
    true [] "/v1/chat" [] bodyRm (toolMsg "rm_rf") rfl rfl

/-- C3 as amended: for a request whose path matches no rule and whose body
raises no whole-body violation, caching disabled yields the no-route outcome
with no cache lookup and no cache store; caching enabled performs exactly one
cache lookup (a miss), does not populate the cache, and also yields the
no-route outcome; and a second identical request is resolved against the
then-current route table, so a route-table change changes the outcome. -/
theorem c3_no_route_cache (parse : List Char → Option Json)
    (hash : List Char → String) (fb : List String) (rules : List RouteRule)
    (cache : List (String × CachedResp)) (path : String) (bytes : List Char)
    (hnv : ∀ j, parse bytes = some j → validate_tools fb j = Except.ok ())
    (hnr : resolve rules path = none)
    (hmiss : cacheGetL cache (cacheKeyNew hash path bytes) = none) :
    proxy_handler parse hash fb rules false cache path bytes =
      (PResp.noRoute, cache, [PEvent.rResolve]) ∧
    proxy_handler parse hash fb rules true cache path bytes =
      (PResp.noRoute, cache,
       [PEvent.cGet (cacheKeyNew hash path bytes), PEvent.rResolve]) ∧
    ∀ (rules' : List RouteRule) (rule : RouteRule),
      resolve rules' path = some rule →
      proxy_handler parse hash fb rules' true cache path bytes =
        (PResp.routed (routedText rule),
         (cacheKeyNew hash path bytes, mkTextResp (routedText rule)) :: cache,
         [PEvent.cGet (cacheKeyNew hash path bytes), PEvent.rResolve,
          PEvent.cSet (cacheKeyNew hash path bytes)]) := by
  have hstep : ∀ (R : List RouteRule) (en : Bool),
      proxy_handler parse hash fb R en cache path bytes =
        proxyCache hash R en cache path bytes := by
    intro R en
    unfold proxy_handler
    cases hp : parse bytes with
    | none => dsimp only
    | some j =>
      dsimp only
      rw [hnv j hp]
  refine ⟨?_, ?_, ?_⟩
  · rw [hstep rules false]
    simp [proxyCache, proxyRoute, hnr]
  · rw [hstep rules true]
    simp [proxyCache, proxyRoute, hmiss, hnr]
  · intro rules' rule h
    rw [hstep rules' true]
    simp [proxyCache, proxyRoute, hmiss, h]

/-- Witness for C3's amended statement at a concrete unmatched request. -/
theorem c3_no_route_cache_witness :
    proxy_handler (fun _ => none) (fun _ => "k") [] [] false [] "/x" [] =
      (PResp.noRoute, [], [PEvent.rResolve]) ∧
    proxy_handler (fun _ => none) (fun _ => "k") [] [] true [] "/x" [] =
      (PResp.noRoute, [],
       [PEvent.cGet (cacheKeyNew (fun _ => "k") "/x" []), PEvent.rResolve]) ∧
    ∀ (rules' : List RouteRule) (rule : RouteRule),
      resolve rules' "/x" = some rule →
      proxy_handler (fun _ => none) (fun _ => "k") [] rules' true [] "/x" [] =
        (PResp.routed (routedText rule),
         (cacheKeyNew (fun _ => "k") "/x" [], mkTextResp (routedText rule)) :: [],
         [PEvent.cGet (cacheKeyNew (fun _ => "k") "/x" []), PEvent.rResolve,
          PEvent.cSet (cacheKeyNew (fun _ => "k") "/x" [])]) :=
  c3_no_route_cache (fun _ => none) (fun _ => "k") [] [] [] "/x" []
    (fun _ h => nomatch h) (by decide) (by decide)

/-- C3 counterexample to the claim as stated: with caching enabled, the first
request to an unmatched path leaves the cache empty (nothing is stored under
the computed key), and repeating the request after the route table gained a
matching rule returns a freshly routed outcome, not a stored one. -/
theorem c3_counterexample :
    (proxy_handler (fun _ => none) (fun _ => "k") [] [] true [] "/x" []).2.1
        = [] ∧
    cacheGetL
        (proxy_handler (fun _ => none) (fun _ => "k") [] [] true [] "/x" []).2.1
        "k" = none ∧
    proxy_handler (fun _ => none) (fun _ => "k") []
        [{ path := "/", target_model := "m", target_url := "u" }] true [] "/x" [] =
      (PResp.routed "Routing request to u (Model: m)",
       [("k", mkTextResp "Routing request to u (Model: m)")],
       [PEvent.cGet "k", PEvent.rResolve, PEvent.cSet "k"]) := by
  refine ⟨by decide, by decide, by decide⟩

/-- C9: a `data: ` line whose payload is exactly the `[DONE]` sentinel is
enqueued as-is with no JSON parse and no policy check (the equation holds for
every `parse` and every forbidden list), and a payload that fails to parse as
JSON is enqueued unchanged with no policy check; in both cases processing
continues with the rest of the buffer. -/
theorem c9_sentinel_and_nonjson (parse : List Char → Option Json)
    (fb : List String) (L r : List Char) (acc : List SseItem) (d : List Char)
    (hnl : findNl L = none) (ht : trimChars L = dataHdr ++ d)
    (hps : d = doneLit ∨ parse d = none) :
    processBufferF (pvOf parse fb) (L ++ '\n' :: r) acc =
      processBufferF (pvOf parse fb) r (acc ++ [SseItem.frame d]) := by
  cases hps with
  | inl h => exact pf_data_done _ L r acc hnl ht h
  | inr h =>
    by_cases hd : d = doneLit
    · exact pf_data_done _ L r acc hnl ht hd
    · refine pf_data_ok _ L r acc hnl ht ?_
      unfold pvOf
      rw [h]

/-- Witness for C9: a non-JSON payload under a parse that rejects it. -/
theorem c9_sentinel_and_nonjson_witness :
    processBufferF (pvOf (fun _ => none) []) (("data: notjson" : String).data
        ++ '\n' :: []) [] =
      processBufferF (pvOf (fun _ => none) []) []
        ([] ++ [SseItem.frame ("notjson" : String).data]) :=
  c9_sentinel_and_nonjson (fun _ => none) [] ("data: notjson" : String).data []
    [] ("notjson" : String).data (by decide) (by decide) (Or.inr rfl)

/-- C8: the analyzer schedules the background cache write only at clean
end-of-data: an execution whose upstream poll results contain no end-of-data
signal (the consumer stopped early, or only chunks and a transport fault were
seen) performs no cache `set` at all, and every execution schedules at most
one write. -/
theorem c8_no_write_without_done (pv : List Char → Option String)
    (ci : Option String) (ups : List UpItem) (hnd : UpItem.upDone ∉ ups) :
    (drain pv (initSt ci) ups).2 = [] ∧
    ∀ ups', (drain pv (initSt ci) ups').2.length ≤ 1 :=
  ⟨drain_no_done pv ups _ hnd, fun ups' => drain_le_one pv ups' _⟩

/-- Witness for C8: two chunks and a transport fault, never completed. -/
theorem c8_no_write_without_done_witness :
    (drain (pvOf fixtureParse ["rm_rf"]) (initSt (some "K"))
        [UpItem.chunk (sseChunk pay1), UpItem.upErr "reset"]).2 = [] ∧
    ∀ ups', (drain (pvOf fixtureParse ["rm_rf"]) (initSt (some "K")) ups').2.length ≤ 1 :=
  c8_no_write_without_done (pvOf fixtureParse ["rm_rf"]) (some "K")
    [UpItem.chunk (sseChunk pay1), UpItem.upErr "reset"] (by decide)

/-- C7:`full_response_buffer` always equals the concatenation of the raw
upstream bytes received so far — independent of chunk boundaries, of
discarded lines and of policy filtering (the statement is uniform in `pv`) —
and at clean end-of-data the body handed to the cache write is exactly that
concatenation. -/
theorem c7_accumulator (pv : List Char → Option String) (k : String)
    (ups : List UpItem) (css : List (List Char))
    (hnd : UpItem.upDone ∉ ups) :
    (drain pv (initSt (some k)) (ups ++ [UpItem.upDone])).2
        = [(k, chunkFlat ups)] ∧
    (runChunks pv (initSt (some k)) css).fullResp = css.flatten := by
  constructor
  · rw [drain_writes pv ups _ hnd]
    rfl
  · rw [runChunks_fullResp]
    rfl

/-- Witness for C7: two chunks with an interleaved transport error. -/
theorem c7_accumulator_witness :
    (drain (pvOf fixtureParse []) (initSt (some "K"))
        ([UpItem.chunk ("ab" : String).data, UpItem.upErr "hiccup",
          UpItem.chunk ("cd" : String).data] ++ [UpItem.upDone])).2 =
      [("K", chunkFlat [UpItem.chunk ("ab" : String).data, UpItem.upErr "hiccup",
        UpItem.chunk ("cd" : String).data])] ∧
    (runChunks (pvOf fixtureParse []) (initSt (some "K"))
        [("ab" : String).data, ("cd" : String).data]).fullResp =
      [("ab" : String).data, ("cd" : String).data].flatten :=
  c7_accumulator (pvOf fixtureParse []) "K"
    [UpItem.chunk ("ab" : String).data, UpItem.upErr "hiccup",
     UpItem.chunk ("cd" : String).data]
    [("ab" : String).data, ("cd" : String).data] (by decide)

/-- C2: chunking invariance — for every way of splitting the byte vector
`data: {"a":1}\n\ndata: [DONE]\n\n` into an ordered list of chunks (the
single-chunk case, splits at every byte boundary, empty chunks included),
feeding the chunks to the analyzer and draining it yields the identical
ordered two-frame output, the `{"a":1}` frame then the `[DONE]` frame; only
the parse result JSON semantics forces for the payload `{"a":1}` is
assumed. -/
theorem c2_chunking_invariance (parse : List Char → Option Json)
    (fb : List String) (ci : Option String) (css : List (List Char))
    (hA : parse payA.data = some valA) (hsplit : css.flatten = vecS) :
    (drain (pvOf parse fb) (initSt ci) (css.map UpItem.chunk ++ [UpItem.upDone])).1 =
      [SseItem.frame payA.data, SseItem.frame doneLit] := by
  have hpv : pvOf parse fb payA.data = none := by
    unfold pvOf
    rw [hA]
    rfl
  have hF : processBufferF (pvOf parse fb) vecS [] =
      ([], [SseItem.frame payA.data, SseItem.frame doneLit], false) := by
    rw [show vecS = ("data: " ++ payA).data
        ++ '\n' :: ('\n' :: ("data: [DONE]\n\n" : String).data) from by decide]
    rw [pf_data_ok (pvOf parse fb) _ _ []
      (show findNl ("data: " ++ payA).data = none from by decide)
      (show trimChars ("data: " ++ payA).data = dataHdr ++ payA.data from by decide)
      hpv]
    rw [pf_blank,
      show ("data: [DONE]\n\n" : String).data
        = ("data: [DONE]" : String).data ++ '\n' :: ['\n'] from rfl,
      pf_data_done (pvOf parse fb) _ _ _ (by decide)
        (show trimChars ("data: [DONE]" : String).data = dataHdr ++ doneLit
          from by decide) rfl,
      pf_blank, pf_end (pvOf parse fb) [] _ rfl]
    simp
  have hflag : (processBufferF (pvOf parse fb) ([] ++ css.flatten) []).2.2 = false := by
    rw [List.nil_append, hsplit, hF]
  have h := drain_chunks (pvOf parse fb) css [] [] ci hflag
  rw [show initSt ci = (⟨[], [], [], ci⟩ : AState) from rfl, h,
    List.nil_append, hsplit, hF]

/-- Witness for C2: the vector split at byte 9, under the lookup-table
parse. -/
theorem c2_chunking_invariance_witness :
    (drain (pvOf fixtureParse []) (initSt none)
        ([vecS.take 9, vecS.drop 9].map UpItem.chunk ++ [UpItem.upDone])).1 =
      [SseItem.frame payA.data, SseItem.frame doneLit] :=
  c2_chunking_invariance fixtureParse [] none [vecS.take 9, vecS.drop 9]
    (by rfl) (by decide)

theorem drain_cons_chunk (pv : List Char → Option String) (buf fr : List Char)
    (ci : Option String) (b : List Char) (rest : List UpItem) :
    drain pv ⟨buf, [], fr, ci⟩ (UpItem.chunk b :: rest) =
      ((processBufferF pv (buf ++ b) []).2.1 ++
        (drain pv ⟨(processBufferF pv (buf ++ b) []).1, [], fr ++ b, ci⟩ rest).1,
       (drain pv ⟨(processBufferF pv (buf ++ b) []).1, [], fr ++ b, ci⟩ rest).2) := by
  simp only [drain, feedChunk, List.nil_append]

theorem drain_done_end (pv : List Char → Option String) (buf fr : List Char)
    (ci : Option String) (tail : List UpItem) :
    drain pv ⟨buf, [], fr, ci⟩ (UpItem.upDone :: tail) =
      (doneFlush pv buf.length buf,
       match ci with
       | some k => [(k, fr)]
       | none => []) := by
  simp only [drain, List.nil_append]

/-- C1 as amended: on the reference fixture stream (`rm_rf` forbidden,
`get_weather` allowed), the analyzer's full output is the five benign frames
in order, the `get_weather` frame, exactly one fault item carrying the
`rm_rf` violation — the violating `rm_rf` frame itself is never emitted — and
then, because the `[DONE]` chunk arrives after the fault and a consumer that
keeps polling still receives it, the `[DONE]` sentinel frame as the one item
after the fault, after which the stream ends. -/
theorem c1_fixture_stream (parse : List Char → Option Json) (fb : List String)
    (ci : Option String)
    (h1 : parse pay1.data = some val1) (h2 : parse pay2.data = some val2)
    (h3 : parse pay3.data = some val3) (h4 : parse pay4.data = some val4)
    (h5 : parse pay5.data = some val5) (h6 : parse pay6.data = some val6)
    (h7 : parse pay7.data = some val7)
    (hrm : fb.contains "rm_rf" = true)
    (hgw : fb.contains "get_weather" = false) :
    (drain (pvOf parse fb) (initSt ci) fixtureUps).1 =
      [SseItem.frame pay1.data, SseItem.frame pay2.data, SseItem.frame pay3.data,
       SseItem.frame pay4.data, SseItem.frame pay5.data, SseItem.frame pay6.data,
       SseItem.fault (toolMsg "rm_rf"), SseItem.frame doneLit] := by
  have hgw' : "get_weather" ∉ fb := by simpa using hgw
  have hrm' : "rm_rf" ∈ fb := by simpa using hrm
  have hp1 : pvOf parse fb pay1.data = none := by
    unfold pvOf
    rw [h1]
    simp [content_interception, val1, contentVal, Json.get, Json.asArr,
      choicesLoop, validate_tools, toolLoop, nameOfCall, Json.asStr, fcCheck,
      List.find?]
  have hp2 : pvOf parse fb pay2.data = none := by
    unfold pvOf
    rw [h2]
    simp [content_interception, val2, contentVal, Json.get, Json.asArr,
      choicesLoop, validate_tools, toolLoop, nameOfCall, Json.asStr, fcCheck,
      List.find?]
  have hp3 : pvOf parse fb pay3.data = none := by
    unfold pvOf
    rw [h3]
    simp [content_interception, val3, contentVal, Json.get, Json.asArr,
      choicesLoop, validate_tools, toolLoop, nameOfCall, Json.asStr, fcCheck,
      List.find?]
  have hp4 : pvOf parse fb pay4.data = none := by
    unfold pvOf
    rw [h4]
    simp [content_interception, val4, contentVal, Json.get, Json.asArr,
      choicesLoop, validate_tools, toolLoop, nameOfCall, Json.asStr, fcCheck,
      List.find?]
  have hp5 : pvOf parse fb pay5.data = none := by
    unfold pvOf
    rw [h5]
    simp [content_interception, val5, contentVal, Json.get, Json.asArr,
      choicesLoop, validate_tools, toolLoop, nameOfCall, Json.asStr, fcCheck,
      List.find?]
  have hp6 : pvOf parse fb pay6.data = none := by
    unfold pvOf
    rw [h6]
    simp [content_interception, val6, toolVal, Json.get, Json.asArr, choicesLoop,
      validate_tools, toolLoop, nameOfCall, Json.asStr, fcCheck, hgw', List.find?]
  have hp7 : pvOf parse fb pay7.data = some (toolMsg "rm_rf") := by
    unfold pvOf
    rw [h7]
    simp [content_interception, val7, toolVal, Json.get, Json.asArr, choicesLoop,
      validate_tools, toolLoop, nameOfCall, Json.asStr, fcCheck, hrm', List.find?]
  have f1 := sse_chunk_ok (pvOf parse fb) pay1 [] (by decide) (by decide) hp1
  have f2 := sse_chunk_ok (pvOf parse fb) pay2 [] (by decide) (by decide) hp2
  have f3 := sse_chunk_ok (pvOf parse fb) pay3 [] (by decide) (by decide) hp3
  have f4 := sse_chunk_ok (pvOf parse fb) pay4 [] (by decide) (by decide) hp4
  have f5 := sse_chunk_ok (pvOf parse fb) pay5 [] (by decide) (by decide) hp5
  have f6 := sse_chunk_ok (pvOf parse fb) pay6 [] (by decide) (by decide) hp6
  have f7 := sse_chunk_bad (pvOf parse fb) pay7 [] (toolMsg "rm_rf")
    (by decide) (by decide) (by decide) hp7
  have f8 := done_chunk_eval (pvOf parse fb) ([] : List SseItem)
  simp only [fixtureUps, initSt]
  rw [drain_cons_chunk]
  simp only [List.nil_append, f1]
  rw [drain_cons_chunk]
  simp only [List.nil_append, f2]
  rw [drain_cons_chunk]
  simp only [List.nil_append, f3]
  rw [drain_cons_chunk]
  simp only [List.nil_append, f4]
  rw [drain_cons_chunk]
  simp only [List.nil_append, f5]
  rw [drain_cons_chunk]
  simp only [List.nil_append, f6]
  rw [drain_cons_chunk]
  simp only [List.nil_append, f7]
  rw [drain_cons_chunk]
  simp only [List.singleton_append, f8]
  rw [drain_done_end]
  simp [doneFlush]

/-- Witness for C1's amended statement: the lookup-table parse with
`forbidden_tools = ["rm_rf"]`. -/
theorem c1_fixture_stream_witness :
    (drain (pvOf fixtureParse ["rm_rf"]) (initSt none) fixtureUps).1 =
      [SseItem.frame pay1.data, SseItem.frame pay2.data, SseItem.frame pay3.data,
       SseItem.frame pay4.data, SseItem.frame pay5.data, SseItem.frame pay6.data,
       SseItem.fault (toolMsg "rm_rf"), SseItem.frame doneLit] :=
  c1_fixture_stream fixtureParse ["rm_rf"] none rfl rfl rfl rfl rfl rfl rfl
    (by decide) (by decide)

/-- C1 counterexample to the claim as stated: under the fixture parse and the
fixture forbidden list, the analyzer's output does not stop at the fault item
— dropping the first seven items leaves the `[DONE]` sentinel frame, an item
emitted after the fault. -/
theorem c1_counterexample :
    (drain (pvOf fixtureParse ["rm_rf"]) (initSt none) fixtureUps).1 =
      [SseItem.frame pay1.data, SseItem.frame pay2.data, SseItem.frame pay3.data,
       SseItem.frame pay4.data, SseItem.frame pay5.data, SseItem.frame pay6.data,
       SseItem.fault (toolMsg "rm_rf"), SseItem.frame doneLit] ∧
    (drain (pvOf fixtureParse ["rm_rf"]) (initSt none) fixtureUps).1.drop 7 =
      [SseItem.frame doneLit] := by
  refine ⟨by decide, by decide⟩

end Orchix
